import Mathlib

/-!
# RepoScan core engine: a shallow embedding with proofs

This file embeds the rule-matching and scanning engine of the RepoScan
repository (`src/types.ts`, `src/scanner/matcher.ts`, `src/scanner/index.ts`)
into Lean and proves, or refutes, the specified properties of the
pattern matcher, the JSON path query engine, the condition evaluator, the
rule evaluator and the scanner's traversal/verdict logic.

Modelling conventions:
* JavaScript strings are modelled as `List Char` (the claims and the rule
  catalog only use ASCII text, so UTF-16 subtleties do not arise).
* JSON numbers are modelled as integers; no claim depends on non-integral
  numerics.
* JavaScript exceptions are modelled with `Except JsError`; an operation
  that can throw is given an `Except` type and `try/catch` blocks in the
  source become explicit handling of the `.error` case.
* The JavaScript regular-expression engine is not re-implemented; a compiled
  regex is modelled as a search oracle `Nat → Option (Nat × Nat)` giving, for
  a start offset, the next match's offset and length.  Concrete oracles are
  supplied for the literal patterns a claim mentions.  The `RegExp.exec`
  cursor discipline (`lastIndex`, global vs non-global) *is* modelled, since
  the loop in `applyRegexRule` depends on it.
-/

namespace RepoScan

/-- The characters of a string literal: JS strings are embedded as `List Char`. -/
def chars (s : String) : List Char := s.data

/-- JS `String.prototype.endsWith` on character lists. -/
def listEndsWith (s p : List Char) : Bool :=
  s.drop (s.length - p.length) == p

/-- JS `String.prototype.startsWith` on character lists. -/
def listStartsWith (s p : List Char) : Bool :=
  s.take p.length == p

/-- Whether `p` occurs as a contiguous substring of `s` (JS `String.prototype.includes`). -/
def listIncludes (s p : List Char) : Bool :=
  listStartsWith s p || (match s with
    | [] => false
    | _ :: rest => listIncludes rest p)

/-- JS `String.prototype.split` with a single-character separator. -/
def splitOnChar (sep : Char) (s : List Char) : List (List Char) :=
  match s with
  | [] => [[]]
  | c :: rest =>
    let tail := splitOnChar sep rest
    if c = sep then [] :: tail
    else match tail with
      | [] => [[c]]
      | t :: ts => (c :: t) :: ts

/-- JS `String.prototype.toLowerCase` (ASCII range, per the paths in scope). -/
def toLowerChars (s : List Char) : List Char := s.map Char.toLower

/-! ## Data model (`src/types.ts`) -/

/-- Severities, `Severity` from `src/types.ts`. -/
inductive Severity where
  | high | medium | low | info
deriving DecidableEq, Repr

/-- Verdicts, `Verdict` from `src/types.ts`. -/
inductive Verdict where
  | high | medium | low
deriving DecidableEq, Repr

/-- Rule categories, `RuleCategory` from `src/types.ts`. -/
inductive RuleCategory where
  | vscodeConfig | javascript | python | shell | solidity | repoHeuristics
deriving DecidableEq, Repr

/-! ## The file-pattern matcher (`matchFile` in `src/scanner/matcher.ts`) -/

/-- One token of the regular expression that the general-wildcard branch of
`matchFile` builds from a pattern: `*` becomes `.*` (any run of characters),
`/` is rewritten to `\/` (still a literal `/`), and every other character is
passed through *unescaped*, so `.` keeps its regex meaning "any single
character (except a line break)".  The rule catalog's patterns only contain
word characters, `.`, `/` and `*`; characters outside that set (which would
be regex metacharacters in JS) do not occur and are modelled as literals. -/
inductive WildTok where
  | star
  | anyChar
  | lit (c : Char)
deriving DecidableEq, Repr

/-- Tokenization of `'^' + pattern.replace(/\*/g, '.*').replace(/\//g, '\\/') + '$'`. -/
def compileWildcard (pattern : List Char) : List WildTok :=
  pattern.map fun c =>
    if c = '*' then .star
    else if c = '.' then .anyChar
    else .lit c

/-- Anchored matching of the compiled wildcard regex, by fuel-indexed
backtracking; every recursive call strictly decreases `toks.length + s.length`,
so the fuel used by `wildMatch` below is always sufficient. -/
def wildMatchFuel : Nat → List WildTok → List Char → Bool
  | 0, _, _ => false
  | fuel + 1, toks, s =>
    match toks, s with
    | [], [] => true
    | [], _ :: _ => false
    | .star :: ts, s =>
      wildMatchFuel fuel ts s ||
        (match s with
         | [] => false
         | _ :: s' => wildMatchFuel fuel (.star :: ts) s')
    | .anyChar :: _, [] => false
    | .anyChar :: ts, c :: s' => decide (c ≠ '\n') && wildMatchFuel fuel ts s'
    | .lit _ :: _, [] => false
    | .lit a :: ts, c :: s' => (a.toLower == c.toLower) && wildMatchFuel fuel ts s'

/-- Anchored matching of the compiled wildcard regex against a string, with the
`i` flag (case-insensitive literals); `.` does not match a line break. -/
def wildMatch (toks : List WildTok) (s : List Char) : Bool :=
  wildMatchFuel (toks.length + s.length + 1) toks s

/-- Normalization `filePath.replace(/\\/g, '/').toLowerCase()`. -/
def normalizePath (p : List Char) : List Char :=
  toLowerChars (p.map fun c => if c = '\\' then '/' else c)

/-- The body of the `patterns.some((pattern) => ...)` callback in `matchFile`. -/
def matchOnePattern (normalizedPath : List Char) (pattern : List Char) : Bool :=
  let normalizedPattern := toLowerChars pattern
  if normalizedPath == normalizedPattern then true
  else if listEndsWith normalizedPath normalizedPattern then true
  else if listStartsWith pattern (chars "*.") then
    listEndsWith normalizedPath (pattern.drop 1)
  else if listEndsWith pattern (chars "/") then
    listStartsWith normalizedPath normalizedPattern
  else if pattern.contains '*' then
    wildMatch (compileWildcard pattern) normalizedPath
  else false

/-- The function `matchFile` from `src/scanner/matcher.ts`. -/
def matchFile (filePath : List Char) (patterns : List (List Char)) : Bool :=
  patterns.any (matchOnePattern (normalizePath filePath))

/-! ## JSON values and the path query engine (`getJsonPath`) -/

/-- A parsed JSON document value.  Numbers are modelled as integers (no claim
in scope depends on non-integral numerics). -/
inductive JsonValue where
  | null
  | bool (b : Bool)
  | num (n : Int)
  | str (s : List Char)
  | arr (xs : List JsonValue)
  | obj (fields : List (List Char × JsonValue))

/-- A JS value flowing through the matcher: `none` is `undefined` (a missing
value / absent path result), `some v` a defined JSON value. -/
abbrev JsValue := Option JsonValue

/-- A thrown JS exception, as far as the matcher can raise one. -/
inductive JsError where
  | typeError
  | syntaxError
deriving DecidableEq, Repr

/-- First own property with the given key (JSON.parse produces unique keys). -/
def lookupField : List (List Char × JsonValue) → List Char → Option JsonValue
  | [], _ => none
  | (k, v) :: rest, key => if k == key then some v else lookupField rest key

/-- Numeric value of a nonempty all-digit string (JS `parseInt(s, 10)` on the
strings accepted by `/^\d+$/`). -/
def digitsToNat (s : List Char) : Nat :=
  s.foldl (fun acc c => acc * 10 + (c.toNat - '0'.toNat)) 0

/-- A key that reads as a canonical JS array index: nonempty, all digits, no
leading zero (except `"0"` itself). -/
def canonIndex (key : List Char) : Option Nat :=
  match key with
  | [] => none
  | c :: rest =>
    if key.all Char.isDigit && (c ≠ '0' || rest = []) then some (digitsToNat key)
    else none

/-- Own-property access `v[key]` on a defined non-null JS value, as performed
by `getJsonPath`'s bracket lookups.  Objects expose their own properties;
arrays and strings additionally expose `length` and canonical numeric indices,
as in JS.  Prototype-chain members are NOT modelled: in JS every value also
exposes inherited function-valued properties (`(5)['toString']` is
`Number.prototype.toString`, objects inherit `hasOwnProperty`, ...), which
this model maps to `none`.  The inherited members are functions, never arrays
or plain objects, so theorems below about `key[index]` segments (which require
`Array.isArray`) and `'*'` segments (which require `typeof current ===
'object'`) state conclusions that hold of the program; statements about
plain-key lookups on primitives are made only where the model agrees with JS
(string `length`/indices), never through the missing prototype case. -/
def jsProp (v : JsonValue) (key : List Char) : Option JsonValue :=
  match v with
  | .obj fields => lookupField fields key
  | .arr xs =>
    if key = chars "length" then some (.num xs.length)
    else match canonIndex key with
      | some i => xs.get? i
      | none => none
  | .str s =>
    if key = chars "length" then some (.num s.length)
    else match canonIndex key with
      | some i => (s.get? i).map fun c => .str [c]
      | none => none
  | _ => none

/-- JS member access `current[key]`: throws a `TypeError` when `current` is
`undefined` or `null`, and otherwise reads as `jsProp` (absent keys read as
`undefined`). -/
def jsAccess (current : JsValue) (key : List Char) : Except JsError JsValue :=
  match current with
  | none => .error .typeError
  | some .null => .error .typeError
  | some v => .ok (jsProp v key)

/-- A character of class `\w`. -/
def isWordChar (c : Char) : Bool := c.isAlphanum || c = '_'

/-- The `part.match(/^(\w+)\[(\d+)\]$/)` test of `getJsonPath`: a segment of
shape `key[index]` decomposes into the key and the parsed index. -/
def parseArraySeg (part : List Char) : Option (List Char × Nat) :=
  let key := part.takeWhile isWordChar
  let rest := part.dropWhile isWordChar
  match key, rest with
  | [], _ => none
  | _, '[' :: rest' =>
    let digits := rest'.takeWhile Char.isDigit
    let after := rest'.dropWhile Char.isDigit
    if digits ≠ [] ∧ after = [']'] then some (key, digitsToNat digits) else none
  | _, _ => none

/-- The `for (const part of parts)` loop of `getJsonPath`, over the list of
dot-separated segments.  The source guards every member access with
`current === null || current === undefined`, so the `TypeError` branch of
`jsAccess` is provably never taken. -/
def getJsonPathParts : JsValue → List (List Char) → Except JsError JsValue
  | current, [] => .ok current
  | current, part :: rest =>
    match current with
    | none => .ok none
    | some .null => .ok none
    | some v =>
      match parseArraySeg part with
      | some (key, idx) => do
        let afterKey ← jsAccess (some v) key
        match afterKey with
        | some (.arr xs) => getJsonPathParts (xs.get? idx) rest
        | _ => .ok none
      | none =>
        if part = chars "*" then
          match v with
          | .arr xs => .ok (some (.arr xs))
          | .obj fields => .ok (some (.arr (fields.map Prod.snd)))
          | _ => .ok none
        else do
          let next ← jsAccess (some v) part
          getJsonPathParts next rest

/-- The function `getJsonPath` from `src/scanner/matcher.ts`. -/
def getJsonPath (obj : JsValue) (path : List Char) : Except JsError JsValue :=
  getJsonPathParts obj (splitOnChar '.' path)

/-! ## Canonical text serialization (`JSON.stringify`) -/

/-- Decimal digits of an integer (`String(n)` for the integers in scope). -/
def intChars (n : Int) : List Char :=
  match n with
  | .ofNat m => Nat.toDigits 10 m
  | .negSucc m => '-' :: Nat.toDigits 10 (m + 1)

/-- The `JSON.stringify` escaping of one string character.  Control characters
below `0x20` other than the named escapes would be `\u`-escaped; they do not
occur in the inputs in scope and are passed through. -/
def escapeJsonChar (c : Char) : List Char :=
  if c = '"' then ['\\', '"']
  else if c = '\\' then ['\\', '\\']
  else if c = '\n' then ['\\', 'n']
  else if c = '\t' then ['\\', 't']
  else if c = '\r' then ['\\', 'r']
  else [c]

/-- Serialization `JSON.stringify` of a string value. -/
def quoteJson (s : List Char) : List Char :=
  '"' :: (s.map escapeJsonChar).flatten ++ ['"']

/-- Comma-joining of serialized members. -/
def joinComma : List (List Char) → List Char
  | [] => []
  | [x] => x
  | x :: y :: rest => x ++ ',' :: joinComma (y :: rest)

mutual
/-- Serialization `JSON.stringify` of a defined JSON value. -/
def jsonStringify : JsonValue → List Char
  | .null => chars "null"
  | .bool true => chars "true"
  | .bool false => chars "false"
  | .num n => intChars n
  | .str s => quoteJson s
  | .arr xs => '[' :: joinComma (jsonStringifyList xs) ++ [']']
  | .obj fields => '\x7b' :: joinComma (jsonStringifyFields fields) ++ ['\x7d']

/-- Serialized members of an array value. -/
def jsonStringifyList : List JsonValue → List (List Char)
  | [] => []
  | x :: xs => jsonStringify x :: jsonStringifyList xs

/-- Serialized `"key":value` members of an object value. -/
def jsonStringifyFields : List (List Char × JsonValue) → List (List Char)
  | [] => []
  | (k, v) :: rest => (quoteJson k ++ ':' :: jsonStringify v) :: jsonStringifyFields rest
end

/-- Serialization `JSON.stringify` of a possibly-undefined value: `JSON.stringify(undefined)`
is `undefined`, not a string. -/
def jsStringify : JsValue → Option (List Char)
  | none => none
  | some v => some (jsonStringify v)

/-! ## The condition evaluator (`checkCondition`) -/

/-- Conditions, `JsonCondition` from `src/types.ts`.  `opOther` stands for a condition
whose `op` is none of the four supported operators (conditions are plain data,
so such a value is representable); it drives the `default` branch of the
`switch`. -/
inductive JsonCondition where
  | opExists
  | opEquals (value : JsValue)
  | opContains (value : List Char)
  | opMatches (pattern : List Char)
  | opOther

/-- JS strict equality `value === expected` as the `equals` branch uses it:
structural on primitives; arrays and objects compare by reference, and a value
retrieved from parsed content never aliases the rule catalog's expected value,
so those compare unequal. -/
def jsStrictEq : JsValue → JsValue → Bool
  | none, none => true
  | some .null, some .null => true
  | some (.bool a), some (.bool b) => a == b
  | some (.num a), some (.num b) => a == b
  | some (.str a), some (.str b) => a == b
  | _, _ => false

/-- The leftmost match of a compiled regex in a subject at or after a start
offset, together with its length: the primitive from which both
`RegExp.exec` (with its `lastIndex` discipline) and `RegExp.test` are
modelled. -/
abbrev RegexSearch := List Char → Nat → Option (Nat × Nat)

/-- A model of the JS regular-expression engine: `compile pattern flags`
returns `none` when `new RegExp(pattern, flags)` would throw a `SyntaxError`,
and otherwise the search function of the compiled regex. -/
structure RegexEngine where
  compile : List Char → List Char → Option RegexSearch

/-- The test `RegExp.test`: whether the compiled regex matches anywhere. -/
def testRegex (search : RegexSearch) (s : List Char) : Bool :=
  (search s 0).isSome

/-- The argument JS passes to `regex.test(JSON.stringify(value))`: `test`
coerces its argument with `String`, and `String(undefined)` is
`"undefined"`. -/
def testArg (value : JsValue) : List Char :=
  match value with
  | none => chars "undefined"
  | some v => jsonStringify v

/-- The function `checkCondition` from `src/scanner/matcher.ts`.  The `contains` fallback
calls `.includes` on `JSON.stringify(value)`, which is `undefined` when the
value is absent — a thrown `TypeError`; the `matches` branch compiles
`condition.pattern`, which throws a `SyntaxError` on an invalid pattern. -/
def checkCondition (eng : RegexEngine) (value : JsValue) (condition : JsonCondition) :
    Except JsError Bool :=
  match condition with
  | .opExists =>
    .ok (match value with
         | none => false
         | some .null => false
         | some _ => true)
  | .opEquals expected => .ok (jsStrictEq value expected)
  | .opContains needle =>
    match value with
    | some (.str s) => .ok (listIncludes s needle)
    | some (.arr xs) =>
      .ok (xs.any fun v =>
        match v with
        | .str s => listIncludes s needle
        | _ => false)
    | _ =>
      match jsStringify value with
      | some s => .ok (listIncludes s needle)
      | none => .error .typeError
  | .opMatches pattern =>
    match eng.compile pattern [] with
    | none => .error .syntaxError
    | some search =>
      match value with
      | some (.str s) => .ok (testRegex search s)
      | _ => .ok (testRegex search (testArg value))
  | .opOther => .ok false

/-! ## Rules and findings (`src/types.ts`) -/

/-- Detection methods, `DetectionMethod` from `src/types.ts`.  The `flags` field of a regex rule
is optional in the source (`flags?: string`); `applyRegexRule` defaults it to
`"gm"`. -/
inductive DetectionMethod where
  | regex (pattern : List Char) (flags : Option (List Char))
  | jsonPath (path : List Char) (condition : JsonCondition)
  | fileExists (paths : List (List Char))
  | custom (handler : List Char)

/-- Rules, `Rule` from `src/types.ts`. -/
structure Rule where
  id : List Char
  name : List Char
  description : List Char
  severity : Severity
  category : RuleCategory
  filePatterns : List (List Char)
  detect : DetectionMethod

/-- Findings, `Finding` from `src/types.ts`.  The `match` field is named `matchText`
(`match` is a Lean keyword). -/
structure Finding where
  ruleId : List Char
  ruleName : List Char
  severity : Severity
  category : RuleCategory
  file : List Char
  line : Option Nat := none
  column : Option Nat := none
  matchText : Option (List Char) := none
  message : List Char
  explanation : List Char
deriving DecidableEq, Repr

/-! ## The regex rule evaluator (`applyRegexRule`) -/

/-- The count `beforeMatch.split('\n').length`: the 1-indexed line of offset `i`. -/
def lineOfOffset (content : List Char) (i : Nat) : Nat :=
  (splitOnChar '\n' (content.take i)).length

/-- The index of the last occurrence of a character, if any
(JS `lastIndexOf`, whose `-1` is modelled as `none`). -/
def lastIdxOf (c : Char) : List Char → Option Nat
  | [] => none
  | x :: rest =>
    match lastIdxOf c rest with
    | some j => some (j + 1)
    | none => if x = c then some 0 else none

/-- The offset difference `match.index - beforeMatch.lastIndexOf('\n')`: the 1-indexed column of
offset `i`. -/
def columnOfOffset (content : List Char) (i : Nat) : Nat :=
  match lastIdxOf '\n' (content.take i) with
  | none => i + 1
  | some p => i - p

/-- The finding `applyRegexRule` pushes for a match at offset `i` of length
`len`: `match[0]` is `content.slice(i, i + len)`, truncated to 200
characters. -/
def mkRegexFinding (rule : Rule) (filePath content : List Char) (i len : Nat) : Finding :=
  { ruleId := rule.id, ruleName := rule.name, severity := rule.severity,
    category := rule.category, file := filePath,
    line := some (lineOfOffset content i),
    column := some (columnOfOffset content i),
    matchText := some (((content.drop i).take len).take 200),
    message := rule.name, explanation := rule.description }

/-- One `regex.exec(content)` call, returning the match (offset and length)
and the updated `lastIndex`.  With the `g` flag the search starts at
`lastIndex`, which advances past the match (and resets to 0 on failure);
without `g`, `exec` ignores and leaves `lastIndex`, always searching from
offset 0. -/
def regexExec (search : RegexSearch) (global : Bool) (content : List Char)
    (lastIndex : Nat) : Option (Nat × Nat) × Nat :=
  if global then
    match search content lastIndex with
    | some (i, len) => (some (i, len), i + len)
    | none => (none, 0)
  else
    (search content 0, lastIndex)

/-- The `while ((match = regex.exec(content)) !== null)` loop of
`applyRegexRule`, including the zero-width-match guard
(`if (match[0].length === 0) regex.lastIndex++`), run for at most `fuel`
iterations; `none` means the loop was still running when the fuel ran out. -/
def regexLoop (search : RegexSearch) (global : Bool) (rule : Rule)
    (filePath content : List Char) :
    Nat → Nat → List Finding → Option (List Finding)
  | 0, _, _ => none
  | fuel + 1, lastIndex, acc =>
    match regexExec search global content lastIndex with
    | (none, _) => some acc
    | (some (i, len), lastIndex') =>
      let acc' := acc ++ [mkRegexFinding rule filePath content i len]
      let lastIndex'' := if len = 0 then lastIndex' + 1 else lastIndex'
      regexLoop search global rule filePath content fuel lastIndex'' acc'

/-- The function `applyRegexRule` from `src/scanner/matcher.ts`, with the regex engine as
an oracle and the `while` loop bounded by `fuel` iterations.  When
`new RegExp(pattern, flags)` throws, the `catch` block logs and the (still
empty) findings array is returned. -/
def applyRegexRule (eng : RegexEngine) (fuel : Nat) (rule : Rule)
    (filePath content : List Char) : Option (List Finding) :=
  match rule.detect with
  | .regex pattern flags =>
    let flagsV := flags.getD (chars "gm")
    match eng.compile pattern flagsV with
    | none => some []
    | some search =>
      regexLoop search (flagsV.contains 'g') rule filePath content fuel 0 []
  | _ => some []

/-- Termination of a regex rule's evaluation: the `while` loop of
`applyRegexRule` finishes within some number of iterations. -/
def regexRuleTerminates (eng : RegexEngine) (rule : Rule)
    (filePath content : List Char) : Prop :=
  ∃ fuel, (applyRegexRule eng fuel rule filePath content).isSome

/-- Sanity of a search oracle on a subject: a reported match begins at or
after the requested start offset and lies inside the subject.  Every JS regex
search has this property. -/
def SearchOk (search : RegexSearch) (subject : List Char) : Prop :=
  ∀ start i len, search subject start = some (i, len) →
    start ≤ i ∧ i + len ≤ subject.length

/-! ## The JSON-path rule evaluator (`applyJsonPathRule`) -/

/-- The `/\[\d+\]$/` stripping in `findJsonPathLine`: remove one trailing
`[digits]` group, if present. -/
def stripIndexSuffix (key : List Char) : List Char :=
  match key.reverse with
  | ']' :: rest =>
    match rest.takeWhile Char.isDigit, rest.dropWhile Char.isDigit with
    | _ :: _, '[' :: before => before.reverse
    | _, _ => key
  | _ => key

/-- The line-scanning loop of `findJsonPathLine`: 1-indexed first line
containing the needle, or 1 if no line does. -/
def findLineLoop : List (List Char) → List Char → Nat → Nat
  | [], _, _ => 1
  | line :: rest, needle, i =>
    if listIncludes line needle then i + 1
    else findLineLoop rest needle (i + 1)

/-- The function `findJsonPathLine` from `src/scanner/matcher.ts`. -/
def findJsonPathLine (content path : List Char) : Nat :=
  let parts := splitOnChar '.' path
  let searchKey := stripIndexSuffix (parts.getLastD [])
  findLineLoop (splitOnChar '\n' content) ('"' :: searchKey ++ ['"']) 0

/-- The function `applyJsonPathRule` from `src/scanner/matcher.ts`.  `JSON.parse(content)`
is modelled by the `parsed` oracle argument (`none` = the parse threw).  The
source's `try/catch` silently absorbs the parse failure and any exception
thrown by `checkCondition` or by `JSON.stringify(value).slice` (the latter
throws when `value` is absent, since `JSON.stringify(undefined)` is
`undefined`); in each of those cases no finding has been pushed. -/
def applyJsonPathRule (eng : RegexEngine) (rule : Rule) (filePath content : List Char)
    (parsed : Option JsonValue) : List Finding :=
  match rule.detect with
  | .jsonPath path condition =>
    match parsed with
    | none => []
    | some json =>
      match getJsonPath (some json) path with
      | .error _ => []
      | .ok value =>
        match checkCondition eng value condition with
        | .error _ => []
        | .ok false => []
        | .ok true =>
          match jsStringify value with
          | none => []
          | some text =>
            [{ ruleId := rule.id, ruleName := rule.name, severity := rule.severity,
               category := rule.category, file := filePath,
               line := some (findJsonPathLine content path),
               matchText := some (text.take 200),
               message := rule.name, explanation := rule.description }]
  | _ => []

/-- The function `applyRule` from `src/scanner/matcher.ts`: dispatch on the detection
method.  A `file-exists` rule emits one finding for the file under
evaluation; a `custom` rule is a silent no-op. -/
def applyRule (eng : RegexEngine) (fuel : Nat) (rule : Rule)
    (filePath content : List Char) (parsed : Option JsonValue) :
    Option (List Finding) :=
  match rule.detect with
  | .regex _ _ => applyRegexRule eng fuel rule filePath content
  | .jsonPath _ _ => some (applyJsonPathRule eng rule filePath content parsed)
  | .fileExists _ =>
    some [{ ruleId := rule.id, ruleName := rule.name, severity := rule.severity,
            category := rule.category, file := filePath,
            message := rule.name, explanation := rule.description }]
  | .custom _ => some []

/-! ## Concrete regex search oracles

The generic theorems quantify over the engine; the concrete claims mention
specific patterns, whose JS regexes are modelled here. -/

/-- Leftmost occurrence of a literal character sequence, scanning from the
head; `idx` is the offset already consumed. -/
def findLitAux (lit : List Char) : List Char → Nat → Option Nat
  | s, idx =>
    if listStartsWith s lit then some idx
    else match s with
      | [] => none
      | _ :: rest => findLitAux lit rest (idx + 1)

/-- The search function of a regex that is a plain literal (no metacharacters):
the leftmost occurrence of the literal at or after the start offset. -/
def litSearch (lit : List Char) : RegexSearch := fun subject start =>
  (findLitAux lit (subject.drop start) 0).map fun j => (start + j, lit.length)

/-- A concrete engine for literal patterns: a pattern made of word characters
compiles to `litSearch`; anything else is out of this engine's scope. -/
def litEngine : RegexEngine :=
  ⟨fun pattern _flags => if pattern.all isWordChar then some (litSearch pattern) else none⟩

/-- The engine modelling a failed compilation: `new RegExp` throws a
`SyntaxError` for the pattern at hand — as it does for `(?P<bad>)`, whose
Python-style named group is invalid JS regex syntax. -/
def failEngine : RegexEngine := ⟨fun _ _ => none⟩

/-- Match length of `eval\s*\(` at the head of `s`: the literal `eval`, a run
of whitespace, then `(`. -/
def evalCallLen (s : List Char) : Option Nat :=
  if listStartsWith s (chars "eval") then
    let rest := s.drop 4
    let ws := (rest.takeWhile fun c => c = ' ' || c = '\t' || c = '\n' || c = '\r').length
    match rest.drop ws with
    | '(' :: _ => some (4 + ws + 1)
    | _ => none
  else none

/-- Scan for `\beval\s*\(`: `prev` is the character before the current
position (`none` at the start of the subject); the word boundary holds when
`prev` is not a word character. -/
def evalSearchAux : List Char → Nat → Option Char → Option (Nat × Nat)
  | s, idx, prev =>
    match evalCallLen s with
    | some len =>
      if (prev.map isWordChar).getD false then
        match s with
        | [] => none
        | c :: rest => evalSearchAux rest (idx + 1) (some c)
      else some (idx, len)
    | none =>
      match s with
      | [] => none
      | c :: rest => evalSearchAux rest (idx + 1) (some c)

/-- The search function of `/\beval\s*\(/`. -/
def evalSearch : RegexSearch := fun subject start =>
  match subject.drop start with
  | s =>
    (evalSearchAux s start (if start = 0 then none else subject.get? (start - 1))).map id

/-- A concrete engine knowing the one escaped pattern the spec's line/column
test case uses: `\beval\s*\(` compiles to `evalSearch`. -/
def evalEngine : RegexEngine :=
  ⟨fun pattern _flags =>
    if pattern = chars "\\beval\\s*\\(" then some evalSearch else none⟩

/-! ## The scanner (`src/scanner/index.ts`)

The traversal is modelled over an explicit directory tree.  The two stop
signals (`this.aborted`, set once and never cleared, and
`Date.now() - startTime > timeout`, monotone in time) are combined into one
oracle: the index `K` of the first signal check at which
`this.aborted || this.isTimedOut()` reads true (`none` = it never does);
both real signals are monotone, so every later check also reads true.
Per-file rule evaluation (`applyRule`, whose oracles and fuel are orthogonal
to the traversal) is a function parameter `ap`. -/

/-- Results, `ScanResult` from `src/types.ts`.  `scanDuration` and `timestamp` are
wall-clock readings with no modelled content and are omitted. -/
structure ScanResult where
  verdict : Verdict
  findings : List Finding
  scannedFiles : Nat
deriving DecidableEq, Repr

/-- The scan-relevant fields of `ScanOptions` (`rootPath` is replaced by the
explicit tree; `timeout` is absorbed into the signal index). -/
structure ScanOptions where
  excludePatterns : List (List Char)
  maxFileSize : Nat

/-! A directory tree.  A file's `content = none` models a failing
`stat`/`readFile`; a directory's `readable = false` a `readdir` that throws
(permission denied). -/

mutual
/-- A directory entry: a file (name, size, readable content) or a directory. -/
inductive FsEntry where
  | file (name : List Char) (size : Nat) (content : Option (List Char))
  | dir (name : List Char) (readable : Bool) (entries : FsEntries)
/-- The entry list of a directory. -/
inductive FsEntries where
  | nil
  | cons (e : FsEntry) (rest : FsEntries)
end

/-- The name `entry.name` of an entry. -/
def entryName : FsEntry → List Char
  | .file name _ _ => name
  | .dir name _ _ => name

/-- The scanner's per-scan mutable state: the findings accumulator, the
`scannedFiles` counter, and the number of signal checks performed so far
(the "clock" against which the signal oracle is read). -/
structure ScanState where
  findings : List Finding
  scannedFiles : Nat
  checks : Nat
deriving Repr

/-- Whether `this.aborted || this.isTimedOut()` reads true at the check with
index `checks`: true from check `K` on (both real signals are monotone). -/
def signalFired (K : Option Nat) (checks : Nat) : Bool :=
  match K with
  | none => false
  | some k => decide (k ≤ checks)

/-- The policy `Scanner.shouldExclude`: hidden names except `.vscode`, then the
configured exclusion patterns (path-bearing patterns by substring, bare names
against the entry name or any path segment). -/
def shouldExclude (opts : ScanOptions) (relativePath name : List Char) : Bool :=
  if listStartsWith name (chars ".") && name != chars ".vscode" then true
  else opts.excludePatterns.any fun pattern =>
    if pattern.contains '/' then listIncludes relativePath pattern
    else name == pattern || (splitOnChar '/' relativePath).contains pattern

/-- The relative path `path.relative(rootPath, path.join(dirPath, entry.name))` for an entry of
the directory whose relative path is `parentRel`. -/
def childRelPath (parentRel name : List Char) : List Char :=
  if parentRel = [] then name else parentRel ++ '/' :: name

/-- The method `Scanner.scanFile`: size check, rule filtering by `matchFile` (no read on
irrelevant files), read, `scannedFiles++`, then per-rule findings appended in
rule order.  A failing `stat` and a failing `readFile` both leave the state
unchanged and are modelled together by `content = none`. -/
def scanFileModel (ap : Rule → List Char → List Char → List Finding)
    (rules : List Rule) (opts : ScanOptions) (relativePath : List Char)
    (size : Nat) (content : Option (List Char)) (s : ScanState) : ScanState :=
  if size > opts.maxFileSize then s
  else
    let applicableRules := rules.filter fun rule => matchFile relativePath rule.filePatterns
    if applicableRules.isEmpty then s
    else
      match content with
      | none => s
      | some text =>
        { s with
          scannedFiles := s.scannedFiles + 1,
          findings := s.findings ++ (applicableRules.map fun rule => ap rule relativePath text).flatten }

mutual
/-- Processing of one not-excluded directory entry of `Scanner.walkDirectory`:
a file goes to `scanFile`; a directory is the recursive `walkDirectory` call,
whose body first checks the stop signal, then lists the directory (a throwing
`readdir` skips the subtree), then walks the entries. -/
def walkEntry (ap : Rule → List Char → List Char → List Finding) (rules : List Rule)
    (opts : ScanOptions) (K : Option Nat) :
    FsEntry → List Char → ScanState → ScanState
  | .file _ size content, relativePath, s =>
    scanFileModel ap rules opts relativePath size content s
  | .dir _ readable entries, relativePath, s =>
    let s₁ := { s with checks := s.checks + 1 }
    if signalFired K s.checks then s₁
    else if readable then walkEntries ap rules opts K relativePath entries s₁
    else s₁

/-- The `for (const entry of entries)` loop of `Scanner.walkDirectory`: before
each entry the stop signal is checked (a firing signal breaks the loop), then
the exclusion policy is applied, then the entry is processed. -/
def walkEntries (ap : Rule → List Char → List Char → List Finding) (rules : List Rule)
    (opts : ScanOptions) (K : Option Nat) :
    List Char → FsEntries → ScanState → ScanState
  | _, .nil, s => s
  | parentRel, .cons e rest, s =>
    let s₁ := { s with checks := s.checks + 1 }
    if signalFired K s.checks then s₁
    else
      let relativePath := childRelPath parentRel (entryName e)
      if shouldExclude opts relativePath (entryName e) then
        walkEntries ap rules opts K parentRel rest s₁
      else
        walkEntries ap rules opts K parentRel rest
          (walkEntry ap rules opts K e relativePath s₁)
end

/-- The function `determineVerdict` from `src/scanner/index.ts`. -/
def determineVerdict (findings : List Finding) : Verdict :=
  if findings.any fun f => f.severity == .high then .high
  else if findings.any fun f => f.severity == .medium then .medium
  else .low

/-- The method `Scanner.scan`: reset the accumulators, walk the root directory (the root
walk is the `dir` case of `walkEntry`: signal check, `readdir`, entry loop),
then build the result with `determineVerdict` over whatever was
accumulated. -/
def scanModel (ap : Rule → List Char → List Char → List Finding) (rules : List Rule)
    (opts : ScanOptions) (K : Option Nat) (rootReadable : Bool) (root : FsEntries) :
    ScanResult :=
  let final := walkEntry ap rules opts K (.dir [] rootReadable root) [] ⟨[], 0, 0⟩
  { verdict := determineVerdict final.findings,
    findings := final.findings,
    scannedFiles := final.scannedFiles }

/-! ## General lemmas -/

theorem listEndsWith_iff {s p : List Char} : listEndsWith s p = true ↔ ∃ t, s = t ++ p := by
  constructor
  · intro h
    rw [listEndsWith, beq_iff_eq] at h
    refine ⟨s.take (s.length - p.length), ?_⟩
    conv_lhs => rw [← List.take_append_drop (s.length - p.length) s]
    rw [h]
  · rintro ⟨t, rfl⟩
    rw [listEndsWith, beq_iff_eq]
    have hl : (t ++ p).length - p.length = t.length := by
      simp [List.length_append]
    rw [hl, List.drop_left]

theorem listEndsWith_trans {s a b : List Char} (h1 : listEndsWith s a = true)
    (h2 : listEndsWith a b = true) : listEndsWith s b = true := by
  rw [listEndsWith_iff] at h1 h2 ⊢
  obtain ⟨t1, rfl⟩ := h1
  obtain ⟨t2, rfl⟩ := h2
  exact ⟨t1 ++ t2, by simp⟩

theorem listStartsWith_length {s p : List Char} (h : listStartsWith s p = true) :
    p.length ≤ s.length := by
  rw [listStartsWith, beq_iff_eq] at h
  have := congrArg List.length h
  simp [List.length_take] at this
  omega

/-- The characterization of `determineVerdict`: the severity aggregation
invariant of §3 of the spec. -/
theorem determineVerdict_eq (fs : List Finding) :
    (determineVerdict fs = .high ↔ ∃ f ∈ fs, f.severity = .high) ∧
    (determineVerdict fs = .medium ↔
      (¬ ∃ f ∈ fs, f.severity = .high) ∧ ∃ f ∈ fs, f.severity = .medium) ∧
    (determineVerdict fs = .low ↔
      (¬ ∃ f ∈ fs, f.severity = .high) ∧ ¬ ∃ f ∈ fs, f.severity = .medium) := by
  have hh : (fs.any fun f => f.severity == Severity.high) = true ↔
      ∃ f ∈ fs, f.severity = .high := by
    simp [List.any_eq_true]
  have hm : (fs.any fun f => f.severity == Severity.medium) = true ↔
      ∃ f ∈ fs, f.severity = .medium := by
    simp [List.any_eq_true]
  by_cases h1 : (fs.any fun f => f.severity == Severity.high) = true <;>
    by_cases h2 : (fs.any fun f => f.severity == Severity.medium) = true <;>
      simp [determineVerdict, h1, h2, ← hh, ← hm]

/-! ## C1 -/

/-- C1: for every completed scan — terminating normally (`K = none`), or cut
short by abort/timeout (any `K`) — the returned `ScanResult`'s verdict is
`high` iff some accumulated finding has severity `high`; otherwise it is
`medium` iff some finding has severity `medium`; otherwise it is `low`
(`low`/`info` findings never raise the verdict). -/
theorem scan_verdict_iff_findings (ap : Rule → List Char → List Char → List Finding)
    (rules : List Rule) (opts : ScanOptions) (K : Option Nat) (rootReadable : Bool)
    (root : FsEntries) :
    ((scanModel ap rules opts K rootReadable root).verdict = .high ↔
      ∃ f ∈ (scanModel ap rules opts K rootReadable root).findings, f.severity = .high) ∧
    ((scanModel ap rules opts K rootReadable root).verdict = .medium ↔
      (¬ ∃ f ∈ (scanModel ap rules opts K rootReadable root).findings, f.severity = .high) ∧
      ∃ f ∈ (scanModel ap rules opts K rootReadable root).findings, f.severity = .medium) ∧
    ((scanModel ap rules opts K rootReadable root).verdict = .low ↔
      (¬ ∃ f ∈ (scanModel ap rules opts K rootReadable root).findings, f.severity = .high) ∧
      ¬ ∃ f ∈ (scanModel ap rules opts K rootReadable root).findings, f.severity = .medium) :=
  determineVerdict_eq (scanModel ap rules opts K rootReadable root).findings

/-! ## C2 -/

/-- C2's counterexample: the claim (and the spec) say `matchFile` returns
`false` for path `hidden.sh` under patterns `['.*.sh']`; the code compiles the
pattern to the regex `/^..*.sh$/i` — the dots are *not* escaped — and
`hidden.sh` matches it (`h` for the first `.`, `idden` for `.*`, `.` for the
third `.`, then `sh`), so `matchFile` returns `true`. -/
theorem matchFile_hidden_sh_counterexample :
    matchFile (chars "hidden.sh") [chars ".*.sh"] = true := by decide

/-- C2 as amended: `'.*.sh'` matches `.hidden.sh` — and also `hidden.sh`,
since the general-wildcard compilation escapes nothing (only `*` is rewritten
to `.*` and `/` to the equivalent `\/`), leaving `.` with its any-character
regex meaning; `'*.txt.exe'` matches exactly the paths whose normalized form
ends with `.txt.exe` (true for `readme.txt.exe`, false for a path ending
merely in `.exe`). -/
theorem matchFile_edge_cases_amended :
    matchFile (chars ".hidden.sh") [chars ".*.sh"] = true ∧
    matchFile (chars "hidden.sh") [chars ".*.sh"] = true ∧
    matchFile (chars "readme.txt.exe") [chars "*.txt.exe"] = true ∧
    matchFile (chars "readme.exe") [chars "*.txt.exe"] = false ∧
    ∀ p, matchFile p [chars "*.txt.exe"] =
      listEndsWith (normalizePath p) (chars ".txt.exe") := by
  refine ⟨by decide, by decide, by decide, by decide, ?_⟩
  intro p
  show (matchOnePattern (normalizePath p) (chars "*.txt.exe") || false) = _
  rw [Bool.or_false]
  have hlow : toLowerChars (chars "*.txt.exe") = chars "*.txt.exe" := by decide
  rw [matchOnePattern, hlow]
  by_cases h1 : (normalizePath p == chars "*.txt.exe") = true
  · rw [beq_iff_eq] at h1
    rw [h1]
    decide
  · rw [Bool.not_eq_true] at h1
    rw [h1]
    simp only [Bool.false_eq_true, if_false]
    by_cases h2 : listEndsWith (normalizePath p) (chars "*.txt.exe") = true
    · rw [h2]
      simp only [if_true]
      exact (listEndsWith_trans h2 (by decide)).symm
    · rw [Bool.not_eq_true] at h2
      rw [h2]
      simp only [Bool.false_eq_true, if_false]
      rw [if_pos (by decide : listStartsWith (chars "*.txt.exe") (chars "*.") = true)]
      have hd : List.drop 1 (chars "*.txt.exe") = chars ".txt.exe" := by decide
      rw [hd]

/-! ## C5 and C10: the path query engine -/

/-- Propagation of an absent value: once `current` is `undefined`, every
further segment returns `undefined`. -/
theorem getJsonPathParts_none (parts : List (List Char)) :
    getJsonPathParts none parts = .ok none := by
  cases parts <;> rfl

/-- The access `jsAccess` on a defined non-null value cannot throw. -/
theorem jsAccess_ok (v : JsonValue) (hv : v ≠ .null) (key : List Char) :
    jsAccess (some v) key = .ok (jsProp v key) := by
  cases v <;> first | rfl | exact absurd rfl hv

/-- What the `'*'` segment returns, per the wildcard branch of `getJsonPath`:
the array itself for an array, the property-value sequence for a non-null
object, `undefined` otherwise. -/
def starValue : JsonValue → JsValue
  | .arr xs => some (.arr xs)
  | .obj fields => some (.arr (fields.map Prod.snd))
  | _ => none

/-- A `'*'` segment returns `starValue` of the current value immediately,
ignoring all remaining segments. -/
theorem getJsonPathParts_star (v : JsonValue) (rest : List (List Char)) :
    getJsonPathParts (some v) (chars "*" :: rest) = .ok (starValue v) := by
  cases v <;> rfl

/-- C5 as amended: `getJsonPath` never throws (the `null`/`undefined` guard
precedes every member access), and traversal short-circuits to the absent
result when the current value is missing or `null`; on a number or boolean, a
`key[index]` segment or a `'*'` segment likewise yields the absent result (no
value a number or boolean exposes — own or inherited — is an array, and a
primitive is not an object).  A plain-key segment on a primitive, however,
follows JavaScript's built-in properties (`"xy".length`,
`(5).toString`, ...) rather than short-circuiting; the counterexample below
shows this on a string's `length`. -/
theorem getJsonPath_total_amended :
    (∀ (doc : JsValue) (path : List Char), ∃ v, getJsonPath doc path = .ok v) ∧
    (∀ (part : List Char) (rest : List (List Char)),
      getJsonPathParts none (part :: rest) = .ok none ∧
      getJsonPathParts (some .null) (part :: rest) = .ok none) ∧
    (∀ (n : Int) (part : List Char) (rest : List (List Char)),
      (parseArraySeg part).isSome = true →
      getJsonPathParts (some (.num n)) (part :: rest) = .ok none) ∧
    (∀ (b : Bool) (part : List Char) (rest : List (List Char)),
      (parseArraySeg part).isSome = true →
      getJsonPathParts (some (.bool b)) (part :: rest) = .ok none) ∧
    (∀ (n : Int) (rest : List (List Char)),
      getJsonPathParts (some (.num n)) (chars "*" :: rest) = .ok none) ∧
    (∀ (b : Bool) (rest : List (List Char)),
      getJsonPathParts (some (.bool b)) (chars "*" :: rest) = .ok none) := by
  have hok : ∀ (parts : List (List Char)) (doc : JsValue),
      ∃ v, getJsonPathParts doc parts = .ok v := by
    intro parts
    induction parts with
    | nil => exact fun doc => ⟨doc, rfl⟩
    | cons part rest ih =>
      intro doc
      simp only [getJsonPathParts]
      split
      · exact ⟨none, rfl⟩
      · exact ⟨none, rfl⟩
      · next v hv =>
        split
        · next key idx hseg =>
          rw [jsAccess_ok v hv]
          generalize jsProp v key = res
          rcases res with _ | v2
          · exact ⟨none, rfl⟩
          · cases v2 <;> first | exact ih _ | exact ⟨none, rfl⟩
        · split
          · cases v <;> exact ⟨_, rfl⟩
          · rw [jsAccess_ok v hv]
            exact ih (jsProp v part)
  refine ⟨fun doc path => hok _ doc, fun part rest => ⟨getJsonPathParts_none _, rfl⟩,
    fun n part rest hs => ?_, fun b part rest hs => ?_,
    fun n rest => getJsonPathParts_star (.num n) rest,
    fun b rest => getJsonPathParts_star (.bool b) rest⟩
  · rcases hseg : parseArraySeg part with _ | ⟨key, idx⟩
    · rw [hseg] at hs
      cases hs
    · simp only [getJsonPathParts, hseg]
      rfl
  · rcases hseg : parseArraySeg part with _ | ⟨key, idx⟩
    · rw [hseg] at hs
      cases hs
    · simp only [getJsonPathParts, hseg]
      rfl

/-- Witness for the amended C5: a `key[index]` segment on a number, evaluated
through the theorem. -/
theorem getJsonPath_total_amended_witness :
    getJsonPathParts (some (.num 5)) [chars "a[0]", chars "b"] = .ok none :=
  getJsonPath_total_amended.2.2.1 5 (chars "a[0]") [chars "b"] (by decide)

/-- Unfolding of the loop body for a defined non-`null` current value. -/
theorem getJsonPathParts_cons_notNull (v : JsonValue) (hv : v ≠ .null) (part : List Char)
    (rest : List (List Char)) :
    getJsonPathParts (some v) (part :: rest) =
      match parseArraySeg part with
      | some (key, idx) =>
        (match jsProp v key with
         | some (.arr xs) => getJsonPathParts (xs.get? idx) rest
         | _ => .ok none)
      | none =>
        if part = chars "*" then .ok (starValue v)
        else getJsonPathParts (jsProp v part) rest := by
  rcases hseg : parseArraySeg part with _ | ⟨key, idx⟩
  · cases v <;> first | exact absurd rfl hv | (simp only [getJsonPathParts, hseg]; rfl)
  · cases v with
    | null => exact absurd rfl hv
    | bool b => simp only [getJsonPathParts, hseg]; rfl
    | num n => simp only [getJsonPathParts, hseg]; rfl
    | str s =>
      simp only [getJsonPathParts, hseg]
      rw [jsAccess_ok (JsonValue.str s) hv key]
      generalize jsProp (JsonValue.str s) key = res
      rcases res with _ | v2
      · rfl
      · cases v2 <;> rfl
    | arr xs =>
      simp only [getJsonPathParts, hseg]
      rw [jsAccess_ok (JsonValue.arr xs) hv key]
      generalize jsProp (JsonValue.arr xs) key = res
      rcases res with _ | v2
      · rfl
      · cases v2 <;> rfl
    | obj fields =>
      simp only [getJsonPathParts, hseg]
      rw [jsAccess_ok (JsonValue.obj fields) hv key]
      generalize jsProp (JsonValue.obj fields) key = res
      rcases res with _ | v2
      · rfl
      · cases v2 <;> rfl

/-- C10: a `'*'` segment returns immediately, so every segment after the
first `'*'` is ignored: `p.*.q` retrieves the same value as `p.*`; and at the
`'*'` the result is the array itself for an array, the property-value
sequence for a non-null object, and absent otherwise. -/
theorem getJsonPath_star_ignores_tail :
    (∀ (doc : JsValue) (ps : List (List Char)) (q : List Char) (qs : List (List Char)),
      getJsonPathParts doc (ps ++ chars "*" :: q :: qs) =
        getJsonPathParts doc (ps ++ [chars "*"])) ∧
    (∀ (v : JsonValue) (rest : List (List Char)),
      getJsonPathParts (some v) (chars "*" :: rest) = .ok (starValue v)) := by
  refine ⟨?_, getJsonPathParts_star⟩
  intro doc ps q qs
  induction ps generalizing doc with
  | nil =>
    rcases doc with _ | v
    · rw [List.nil_append, List.nil_append, getJsonPathParts_none, getJsonPathParts_none]
    · rw [List.nil_append, List.nil_append, getJsonPathParts_star, getJsonPathParts_star]
  | cons p ps' ih =>
    rcases doc with _ | v
    · simp only [List.cons_append]
      rw [getJsonPathParts_none, getJsonPathParts_none]
    · by_cases hv : v = .null
      · subst hv
        simp only [List.cons_append]
        rfl
      · simp only [List.cons_append]
        rw [getJsonPathParts_cons_notNull v hv p, getJsonPathParts_cons_notNull v hv p]
        rcases hseg : parseArraySeg p with _ | ⟨key, idx⟩
        · simp only [hseg]
          by_cases hstar : p = chars "*"
          · rw [if_pos hstar, if_pos hstar]
          · rw [if_neg hstar, if_neg hstar]
            exact ih _
        · simp only [hseg]
          generalize jsProp v key = res
          rcases res with _ | v2
          · rfl
          · cases v2 <;> first | exact ih _ | rfl

/-- C5's counterexample: the claim says traversal short-circuits to absent as
soon as the current value is not an object/array where a key lookup is
required; but a JS *string* exposes own properties, so on the document
`{"a": "xy"}` the path `a.length` yields `2` — a present value — where the
claim requires absence. -/
theorem getJsonPath_string_property_counterexample :
    getJsonPath (some (.obj [(chars "a", .str (chars "xy"))])) (chars "a.length") =
      .ok (some (.num 2)) ∧ some (JsonValue.num 2) ≠ (none : JsValue) :=
  ⟨rfl, by simp⟩

/-! ## C4: totality of the condition evaluator -/

/-- C4's counterexample: the claim says `checkCondition` never raises, with
`contains` falling back to the value's canonical text serialization; but for
the absent value `JSON.stringify(undefined)` is `undefined`, and calling
`.includes` on it throws a `TypeError`. -/
theorem checkCondition_absent_contains_counterexample :
    checkCondition litEngine none (.opContains (chars "x")) = .error .typeError := rfl

/-- C4 as amended: `checkCondition` returns a boolean and never raises,
*except* when the operator is `contains` and the value is absent (the
stringify fallback throws a `TypeError`), or when the operator is `matches`
and its pattern does not compile (a `SyntaxError`); an unsupported operator
evaluates to `false`. -/
theorem checkCondition_total_amended (eng : RegexEngine) (value : JsValue)
    (condition : JsonCondition)
    (hc : ∀ needle, condition = .opContains needle → value ≠ none)
    (hm : ∀ pat, condition = .opMatches pat → (eng.compile pat []).isSome = true) :
    (∃ b, checkCondition eng value condition = .ok b) ∧
    (condition = .opOther → checkCondition eng value condition = .ok false) := by
  constructor
  · cases condition with
    | opExists => exact ⟨_, rfl⟩
    | opEquals expected => exact ⟨_, rfl⟩
    | opContains needle =>
      rcases value with _ | v
      · exact absurd rfl (hc needle rfl)
      · cases v <;> exact ⟨_, rfl⟩
    | opMatches pat =>
      have hs := hm pat rfl
      rcases hcomp : eng.compile pat [] with _ | search
      · rw [hcomp] at hs
        simp at hs
      · simp only [checkCondition, hcomp]
        rcases value with _ | v
        · exact ⟨_, rfl⟩
        · cases v <;> exact ⟨_, rfl⟩
    | opOther => exact ⟨false, rfl⟩
  · intro h
    subst h
    rfl

/-- Witness for the amended C4: a concrete evaluation through the theorem at
an unsupported operator. -/
theorem checkCondition_total_amended_witness :
    checkCondition litEngine (some .null) .opOther = .ok false :=
  (checkCondition_total_amended litEngine (some .null) .opOther
    (fun _ h => nomatch h) (fun _ h => nomatch h)).2 rfl

/-! ## C6: the JSON-path rule emits exactly one finding -/

/-- The 1-indexed first line satisfying the search, the spec's description of
`findJsonPathLine`'s scan. -/
def firstLineWith (lines : List (List Char)) (needle : List Char) : Option Nat :=
  match lines with
  | [] => none
  | l :: rest =>
    if listIncludes l needle then some 1 else (firstLineWith rest needle).map (· + 1)

/-- The scanning loop returns the 1-indexed first line containing the needle,
or 1 when no line does. -/
theorem findLineLoop_eq (needle : List Char) :
    ∀ (lines : List (List Char)) (i : Nat),
      findLineLoop lines needle i =
        match firstLineWith lines needle with
        | some k => i + k
        | none => 1 := by
  intro lines
  induction lines with
  | nil => intro i; rfl
  | cons l rest ih =>
    intro i
    simp only [findLineLoop, firstLineWith]
    by_cases h : listIncludes l needle = true
    · simp [h]
    · rw [Bool.not_eq_true] at h
      simp only [h, Bool.false_eq_true, if_false, ih (i + 1)]
      rcases firstLineWith rest needle with _ | k
      · rfl
      · show i + 1 + k = i + (k + 1)
        omega

/-- The `scripts.postinstall` existence rule of the test suite. -/
def postinstallRule : Rule :=
  { id := chars "exists-test", name := chars "JSON rule", description := chars "JSON test",
    severity := .high, category := .vscodeConfig, filePatterns := [chars "*.json"],
    detect := .jsonPath (chars "scripts.postinstall") .opExists }

/-- The parsed form of `{"scripts":{"postinstall":"node setup.js"}}`. -/
def postinstallDoc : JsonValue :=
  .obj [(chars "scripts", .obj [(chars "postinstall", .str (chars "node setup.js"))])]

/-- The raw text `{"scripts":{"postinstall":"node setup.js"}}`. -/
def postinstallContent : List Char :=
  chars "\x7b\"scripts\":\x7b\"postinstall\":\"node setup.js\"\x7d\x7d"

/-- A rule whose condition is `matches "undef"` on the absent path `x`. -/
def matchesUndefRule : Rule :=
  { postinstallRule with
    id := chars "matches-undef",
    detect := .jsonPath (chars "x") (.opMatches (chars "undef")) }

/-- C6 as amended: when the content parses, the rule's path retrieves a
*present* value, and the condition holds on it, `applyRule` emits exactly one
finding, whose `match` is the canonical JSON serialization of the value
truncated to 200 characters and whose `line` is the 1-indexed first line of
the raw content containing the quoted final path segment — or 1 when no line
contains it. -/
theorem applyJsonPathRule_one_finding (eng : RegexEngine) (fuel : Nat) (rule : Rule)
    (filePath content : List Char) (path : List Char) (condition : JsonCondition)
    (json v : JsonValue)
    (hd : rule.detect = .jsonPath path condition)
    (hg : getJsonPath (some json) path = .ok (some v))
    (hc : checkCondition eng (some v) condition = .ok true) :
    applyRule eng fuel rule filePath content (some json) =
      some [{ ruleId := rule.id, ruleName := rule.name, severity := rule.severity,
              category := rule.category, file := filePath,
              line := some (findJsonPathLine content path),
              matchText := some ((jsonStringify v).take 200),
              message := rule.name, explanation := rule.description }] ∧
    findJsonPathLine content path =
      (firstLineWith (splitOnChar '\n' content)
        ('"' :: stripIndexSuffix ((splitOnChar '.' path).getLastD []) ++ ['"'])).getD 1 := by
  constructor
  · simp only [applyRule, hd, applyJsonPathRule, hg, hc, jsStringify]
  · rw [findJsonPathLine, findLineLoop_eq]
    rcases firstLineWith (splitOnChar '\n' content)
        ('"' :: stripIndexSuffix ((splitOnChar '.' path).getLastD []) ++ ['"']) with _ | k
    · rfl
    · simp

/-- Witness for the amended C6: the test suite's `scripts.postinstall`
scenario evaluated through the theorem. -/
theorem applyJsonPathRule_one_finding_witness :
    applyRule litEngine 0 postinstallRule (chars "package.json") postinstallContent
        (some postinstallDoc) =
      some [{ ruleId := chars "exists-test", ruleName := chars "JSON rule",
              severity := .high, category := .vscodeConfig, file := chars "package.json",
              line := some 1, matchText := some (chars "\"node setup.js\""),
              message := chars "JSON rule", explanation := chars "JSON test" }] :=
  (applyJsonPathRule_one_finding litEngine 0 postinstallRule (chars "package.json")
    postinstallContent (chars "scripts.postinstall") .opExists postinstallDoc
    (.str (chars "node setup.js")) rfl rfl rfl).1

/-- C6's counterexample: on content `{}` (which parses) with path `x` (so the
retrieved value is absent) and condition `matches "undef"`, the condition
*holds* — `test` coerces `JSON.stringify(undefined)` to the string
`"undefined"`, which matches — yet no finding is emitted, because building the
finding throws on `JSON.stringify(value).slice` and the `catch` swallows it. -/
theorem applyJsonPathRule_absent_value_counterexample :
    checkCondition litEngine none (.opMatches (chars "undef")) = .ok true ∧
    applyRule litEngine 0 matchesUndefRule (chars "f.json") (chars "\x7b\x7d")
      (some (.obj [])) = some [] := ⟨rfl, rfl⟩

/-! ## C7: line/column attribution of regex findings -/

/-- The test suite's `\beval\s*\(` rule. -/
def evalTestRule : Rule :=
  { id := chars "test-eval", name := chars "Test rule",
    description := chars "Test description", severity := .high, category := .javascript,
    filePatterns := [chars "*.js"],
    detect := .regex (chars "\\beval\\s*\\(") (some (chars "gm")) }

/-- The offset of the start of the line containing offset `i`: one past the
last line break before `i`, or the start of text when there is none. -/
def lineStart (content : List Char) (i : Nat) : Nat :=
  match lastIdxOf '\n' (content.take i) with
  | none => 0
  | some p => p + 1

theorem splitOnChar_ne_nil (sep : Char) (s : List Char) : splitOnChar sep s ≠ [] := by
  cases s with
  | nil => simp [splitOnChar]
  | cons c rest =>
    simp only [splitOnChar]
    by_cases h : c = sep
    · simp [h]
    · simp only [if_neg h]
      rcases splitOnChar sep rest with _ | ⟨t, ts⟩ <;> simp

theorem splitOnChar_length (sep : Char) (s : List Char) :
    (splitOnChar sep s).length = s.count sep + 1 := by
  induction s with
  | nil => rfl
  | cons c rest ih =>
    simp only [splitOnChar]
    by_cases h : c = sep
    · subst h
      simp [List.count_cons, ih]
    · simp only [if_neg h]
      rcases hs : splitOnChar sep rest with _ | ⟨t, ts⟩
      · exact absurd hs (splitOnChar_ne_nil sep rest)
      · rw [hs] at ih
        simp only [List.length_cons] at ih ⊢
        have : rest.count sep = ts.length := by omega
        simp [List.count_cons, h, this]

theorem lastIdxOf_lt_length (c : Char) :
    ∀ (s : List Char) (p : Nat), lastIdxOf c s = some p → p < s.length := by
  intro s
  induction s with
  | nil => intro p h; cases h
  | cons x rest ih =>
    intro p h
    simp only [lastIdxOf] at h
    rcases hr : lastIdxOf c rest with _ | j
    · rw [hr] at h
      by_cases hx : x = c
      · rw [if_pos hx] at h
        cases h
        simp
      · rw [if_neg hx] at h
        cases h
    · rw [hr] at h
      cases h
      have := ih j hr
      simp only [List.length_cons]
      omega

/-- C7: every finding a regex rule produces carries
`line = 1 + (number of line breaks before the match offset)` and
`column = 1 + (match offset − start of its line)`; and the spec's concrete
case — content `"line1\nline2\neval(x)"` with pattern `\beval\s*\(` — yields
exactly one finding, on line 3. -/
theorem regex_finding_line_column :
    (∀ (rule : Rule) (filePath content : List Char) (i len : Nat),
      (mkRegexFinding rule filePath content i len).line =
        some (1 + (content.take i).count '\n') ∧
      (mkRegexFinding rule filePath content i len).column =
        some (1 + (i - lineStart content i))) ∧
    applyRegexRule evalEngine 25 evalTestRule (chars "test.js")
        (chars "line1\nline2\neval(x)") =
      some [{ ruleId := chars "test-eval", ruleName := chars "Test rule",
              severity := .high, category := .javascript, file := chars "test.js",
              line := some 3, column := some 1, matchText := some (chars "eval("),
              message := chars "Test rule", explanation := chars "Test description" }] := by
  refine ⟨fun rule filePath content i len => ⟨?_, ?_⟩, by decide⟩
  · simp only [mkRegexFinding, lineOfOffset, splitOnChar_length]
    rw [Nat.add_comm]
  · simp only [mkRegexFinding, columnOfOffset, lineStart]
    rcases h : lastIdxOf '\n' (content.take i) with _ | p
    · simp [Nat.add_comm]
    · have hp : p < (content.take i).length := lastIdxOf_lt_length '\n' _ p h
      have hle : (content.take i).length ≤ i := by
        simp [List.length_take]
      simp only [Option.some.injEq]
      omega

/-! ## C8: invalid regex patterns produce no findings -/

/-- C8: when `new RegExp(pattern, flags)` throws — as for `(?P<bad>)` —
`applyRule` returns the empty findings list for every file path and every
content, and does not throw. -/
theorem invalid_regex_no_findings (eng : RegexEngine) (fuel : Nat) (rule : Rule)
    (filePath content : List Char) (parsed : Option JsonValue)
    (pattern : List Char) (flags : Option (List Char))
    (hd : rule.detect = .regex pattern flags)
    (hc : eng.compile pattern (flags.getD (chars "gm")) = none) :
    applyRule eng fuel rule filePath content parsed = some [] := by
  simp only [applyRule, hd, applyRegexRule, hc]

/-- A rule carrying the invalid pattern `(?P<bad>)` (Python-style named
groups are a `SyntaxError` in JS). -/
def badRegexRule : Rule :=
  { id := chars "bad-regex", name := chars "Bad", description := chars "Bad pattern",
    severity := .high, category := .javascript, filePatterns := [chars "*.js"],
    detect := .regex (chars "(?P<invalid>)") (some (chars "gm")) }

/-- Witness for C8: the spec's `evaluate({regex:"(?P<bad>)"}, "f", "x")`
scenario through the theorem, with the engine refusing the pattern. -/
theorem invalid_regex_no_findings_witness :
    applyRule failEngine 5 badRegexRule (chars "f") (chars "x") none = some [] :=
  invalid_regex_no_findings failEngine 5 badRegexRule (chars "f") (chars "x") none
    (chars "(?P<invalid>)") (some (chars "gm")) rfl rfl

/-! ## C3: termination of regex rule evaluation -/

theorem findLitAux_bound (lit : List Char) (hl : lit ≠ []) :
    ∀ (s : List Char) (idx j : Nat), findLitAux lit s idx = some j →
      idx ≤ j ∧ (j - idx) + lit.length ≤ s.length := by
  intro s
  induction s with
  | nil =>
    intro idx j h
    have hs : listStartsWith [] lit = false := by
      cases lit with
      | nil => exact absurd rfl hl
      | cons c r => rfl
    simp only [findLitAux, hs, Bool.false_eq_true, if_false] at h
    cases h
  | cons c rest ih =>
    intro idx j h
    simp only [findLitAux] at h
    by_cases hstart : listStartsWith (c :: rest) lit = true
    · rw [if_pos hstart] at h
      cases h
      refine ⟨Nat.le_refl _, ?_⟩
      simp only [Nat.sub_self, Nat.zero_add]
      exact listStartsWith_length hstart
    · rw [Bool.not_eq_true] at hstart
      simp only [hstart, Bool.false_eq_true, if_false] at h
      obtain ⟨h1, h2⟩ := ih (idx + 1) j h
      simp only [List.length_cons]
      omega

theorem litSearch_ok (lit subject : List Char) (hl : lit ≠ []) :
    SearchOk (litSearch lit) subject := by
  intro start i len h
  simp only [litSearch] at h
  rcases hf : findLitAux lit (subject.drop start) 0 with _ | j
  · rw [hf] at h
    cases h
  · rw [hf] at h
    simp only [Option.map, Option.some.injEq, Prod.mk.injEq] at h
    obtain ⟨h3, h4⟩ := h
    subst h3
    subst h4
    obtain ⟨_, h2⟩ := findLitAux_bound lit hl _ 0 j hf
    have hlen : (subject.drop start).length = subject.length - start :=
      List.length_drop start subject
    have hpos : 1 ≤ lit.length := List.length_pos.mpr hl
    rw [hlen] at h2
    constructor
    · omega
    · omega

theorem regexLoop_global_terminates (search : RegexSearch) (rule : Rule)
    (filePath content : List Char) (hok : SearchOk search content) :
    ∀ (fuel lastIndex : Nat) (acc : List Finding),
      content.length + 1 - lastIndex < fuel →
      (regexLoop search true rule filePath content fuel lastIndex acc).isSome = true := by
  intro fuel
  induction fuel with
  | zero =>
    intro li acc h
    omega
  | succ n ih =>
    intro li acc h
    simp only [regexLoop, regexExec, if_pos]
    rcases hs : search content li with _ | ⟨i, len⟩
    · simp
    · obtain ⟨hi, hlen⟩ := hok li i len hs
      by_cases hz : len = 0
      · simp only [hz, if_pos]
        exact ih _ _ (by omega)
      · simp only [if_neg hz]
        exact ih _ _ (by omega)

/-- C3 as amended: for every regex rule whose flags *include* `g` (the
source's default `"gm"` does), and any search oracle reporting in-bounds
matches, evaluation terminates — the cursor advances past every match, and
after a zero-width match it advances by one more; `content.length + 2` loop
iterations always suffice. -/
theorem regex_rule_terminates_global (eng : RegexEngine) (rule : Rule)
    (filePath content : List Char) (pattern : List Char) (flags : Option (List Char))
    (hd : rule.detect = .regex pattern flags)
    (hg : (flags.getD (chars "gm")).contains 'g' = true)
    (hok : ∀ search, eng.compile pattern (flags.getD (chars "gm")) = some search →
      SearchOk search content) :
    regexRuleTerminates eng rule filePath content ∧
    (applyRegexRule eng (content.length + 2) rule filePath content).isSome = true := by
  have hmain : (applyRegexRule eng (content.length + 2) rule filePath content).isSome = true := by
    simp only [applyRegexRule, hd]
    rcases hc : eng.compile pattern (flags.getD (chars "gm")) with _ | search
    · simp
    · rw [hg]
      exact regexLoop_global_terminates search rule filePath content (hok search hc)
        (content.length + 2) 0 [] (by omega)
  exact ⟨⟨content.length + 2, hmain⟩, hmain⟩

/-- A regex rule with the literal pattern `a` and flags `'m'` — no `'g'`. -/
def nonGlobalRule : Rule :=
  { id := chars "ng", name := chars "Non-global", description := chars "d",
    severity := .high, category := .javascript, filePatterns := [chars "*.js"],
    detect := .regex (chars "a") (some (chars "m")) }

/-- Without `g`, `exec` ignores `lastIndex`: the loop state never changes and
the loop runs out of any amount of fuel. -/
theorem regexLoop_nonGlobal_none :
    ∀ (fuel lastIndex : Nat) (acc : List Finding),
      regexLoop (litSearch (chars "a")) false nonGlobalRule (chars "f") (chars "a")
        fuel lastIndex acc = none := by
  intro fuel
  induction fuel with
  | zero => intro li acc; rfl
  | succ n ih => intro li acc; exact ih li _

/-- C3's counterexample: a rule with flag set `'m'` — one of the independently
selectable flag combinations, without `'g'` — and the matching literal pattern
`a` on content `"a"`.  A non-global JS regex ignores `lastIndex`, so
`regex.exec(content)` returns the same nonempty match on every iteration (the
zero-width guard never fires) and the `while` loop of `applyRegexRule` never
terminates: no amount of fuel completes it. -/
theorem regex_nonglobal_nonterminating_counterexample :
    ¬ regexRuleTerminates litEngine nonGlobalRule (chars "f") (chars "a") := by
  rintro ⟨fuel, h⟩
  have heq : applyRegexRule litEngine fuel nonGlobalRule (chars "f") (chars "a") =
      regexLoop (litSearch (chars "a")) false nonGlobalRule (chars "f") (chars "a")
        fuel 0 [] := rfl
  rw [heq, regexLoop_nonGlobal_none fuel 0 []] at h
  cases h

/-- A regex rule with the literal pattern `a` and the default flags `"gm"`. -/
def globalLitRule : Rule :=
  { id := chars "g-lit", name := chars "Global literal", description := chars "d",
    severity := .high, category := .javascript, filePatterns := [chars "*.js"],
    detect := .regex (chars "a") none }

/-- Witness for the amended C3: the global literal rule on `"aa"` terminates
within the stated fuel. -/
theorem regex_rule_terminates_global_witness :
    (applyRegexRule litEngine ((chars "aa").length + 2) globalLitRule (chars "f")
      (chars "aa")).isSome = true :=
  (regex_rule_terminates_global litEngine globalLitRule (chars "f") (chars "aa")
    (chars "a") none rfl (by decide)
    (fun search hs => by
      have h2 : some (litSearch (chars "a")) = some search := hs
      injection h2 with h3
      rw [← h3]
      exact litSearch_ok (chars "a") (chars "aa") (by decide))).2

/-! ## C9: abort/timeout still yields a well-formed result -/

/-- Extension: `b` is `a` with further findings appended: nothing accumulated in `a` has
been discarded. -/
def FindingsExtend (a b : List Finding) : Prop := ∃ t, b = a ++ t

theorem FindingsExtend.refl (a : List Finding) : FindingsExtend a a := ⟨[], by simp⟩

theorem FindingsExtend.trans {a b c : List Finding}
    (h1 : FindingsExtend a b) (h2 : FindingsExtend b c) : FindingsExtend a c := by
  obtain ⟨t1, rfl⟩ := h1
  obtain ⟨t2, rfl⟩ := h2
  exact ⟨t1 ++ t2, by simp⟩

/-- Both real stop signals (an abort flag that is never cleared, and a
monotone clock passing the timeout) stay set once set. -/
theorem signalFired_mono {K : Option Nat} {c c' : Nat} (h : c ≤ c')
    (hf : signalFired K c = true) : signalFired K c' = true := by
  cases K with
  | none => cases hf
  | some k =>
    simp only [signalFired, decide_eq_true_eq] at hf ⊢
    omega

theorem scanFileModel_extends (ap : Rule → List Char → List Char → List Finding)
    (rules : List Rule) (opts : ScanOptions) (relativePath : List Char)
    (size : Nat) (content : Option (List Char)) (s : ScanState) :
    FindingsExtend s.findings
      (scanFileModel ap rules opts relativePath size content s).findings := by
  simp only [scanFileModel]
  split
  · exact FindingsExtend.refl _
  · split
    · exact FindingsExtend.refl _
    · split
      · exact FindingsExtend.refl _
      · exact ⟨_, rfl⟩

mutual
/-- The walk only appends findings (one directory entry). -/
theorem walkEntry_extends (ap : Rule → List Char → List Char → List Finding)
    (rules : List Rule) (opts : ScanOptions) (K : Option Nat) :
    ∀ (e : FsEntry) (rel : List Char) (s : ScanState),
      FindingsExtend s.findings (walkEntry ap rules opts K e rel s).findings
  | .file _ size content, rel, s => scanFileModel_extends ap rules opts rel size content s
  | .dir _ readable entries, rel, s => by
    simp only [walkEntry]
    split
    · exact FindingsExtend.refl _
    · split
      · exact walkEntries_extends ap rules opts K rel entries _
      · exact FindingsExtend.refl _

/-- The walk only appends findings (an entry list). -/
theorem walkEntries_extends (ap : Rule → List Char → List Char → List Finding)
    (rules : List Rule) (opts : ScanOptions) (K : Option Nat) :
    ∀ (rel : List Char) (es : FsEntries) (s : ScanState),
      FindingsExtend s.findings (walkEntries ap rules opts K rel es s).findings
  | _, .nil, _ => FindingsExtend.refl _
  | rel, .cons e rest, s => by
    simp only [walkEntries]
    split
    · exact FindingsExtend.refl _
    · split
      · exact walkEntries_extends ap rules opts K rel rest _
      · exact FindingsExtend.trans
          (walkEntry_extends ap rules opts K e (childRelPath rel (entryName e))
            { s with checks := s.checks + 1 })
          (walkEntries_extends ap rules opts K rel rest _)
end

/-- The simulation relation between the run with stop signal `K` and the
undisturbed run (`K = none`) at the same point of the traversal: either the
signal has not fired and the two states agree, or it has fired and the
signalled run's findings are an already-accumulated portion of the
undisturbed run's. -/
def StopRel (K : Option Nat) (sK sN : ScanState) : Prop :=
  sK = sN ∨ (signalFired K sK.checks = true ∧ FindingsExtend sK.findings sN.findings)

mutual
/-- Preservation of `StopRel` by processing one entry. -/
theorem walkEntry_stopRel (ap : Rule → List Char → List Char → List Finding)
    (rules : List Rule) (opts : ScanOptions) (K : Option Nat) :
    ∀ (e : FsEntry) (rel : List Char) (s : ScanState),
      StopRel K (walkEntry ap rules opts K e rel s) (walkEntry ap rules opts none e rel s)
  | .file _ _ _, _, _ => Or.inl rfl
  | .dir _ readable entries, rel, s => by
    have hn : signalFired none s.checks = false := rfl
    simp only [walkEntry, hn, Bool.false_eq_true, if_false]
    by_cases hf : signalFired K s.checks = true
    · rw [if_pos hf]
      right
      refine ⟨signalFired_mono (Nat.le_succ _) hf, ?_⟩
      cases readable
      · simp only [Bool.false_eq_true, if_false]
        exact FindingsExtend.refl _
      · simp only [if_true]
        exact walkEntries_extends ap rules opts none rel entries _
    · rw [if_neg hf]
      cases readable
      · simp only [Bool.false_eq_true, if_false]
        exact Or.inl rfl
      · simp only [if_true]
        exact walkEntries_stopRel ap rules opts K rel entries _ _ (Or.inl rfl)

/-- Preservation of `StopRel` by the entry loop. -/
theorem walkEntries_stopRel (ap : Rule → List Char → List Char → List Finding)
    (rules : List Rule) (opts : ScanOptions) (K : Option Nat) :
    ∀ (rel : List Char) (es : FsEntries) (sK sN : ScanState),
      StopRel K sK sN →
      StopRel K (walkEntries ap rules opts K rel es sK)
        (walkEntries ap rules opts none rel es sN)
  | _, .nil, _, _, h => h
  | rel, .cons e rest, sK, sN, h => by
    rcases h with rfl | ⟨hf, hext⟩
    · have hn : signalFired none sK.checks = false := rfl
      simp only [walkEntries, hn, Bool.false_eq_true, if_false]
      by_cases hf : signalFired K sK.checks = true
      · rw [if_pos hf]
        right
        refine ⟨signalFired_mono (Nat.le_succ _) hf, ?_⟩
        by_cases hex : shouldExclude opts (childRelPath rel (entryName e)) (entryName e) = true
        · rw [if_pos hex]
          exact walkEntries_extends ap rules opts none rel rest _
        · rw [if_neg hex]
          exact FindingsExtend.trans
            (walkEntry_extends ap rules opts none e (childRelPath rel (entryName e))
              { sK with checks := sK.checks + 1 })
            (walkEntries_extends ap rules opts none rel rest _)
      · rw [if_neg hf]
        by_cases hex : shouldExclude opts (childRelPath rel (entryName e)) (entryName e) = true
        · rw [if_pos hex, if_pos hex]
          exact walkEntries_stopRel ap rules opts K rel rest _ _ (Or.inl rfl)
        · rw [if_neg hex, if_neg hex]
          exact walkEntries_stopRel ap rules opts K rel rest _ _
            (walkEntry_stopRel ap rules opts K e _ _)
    · have hn : signalFired none sN.checks = false := rfl
      simp only [walkEntries, hn, Bool.false_eq_true, if_false]
      rw [if_pos hf]
      right
      refine ⟨signalFired_mono (Nat.le_succ _) hf, ?_⟩
      by_cases hex : shouldExclude opts (childRelPath rel (entryName e)) (entryName e) = true
      · rw [if_pos hex]
        exact FindingsExtend.trans hext (walkEntries_extends ap rules opts none rel rest _)
      · rw [if_neg hex]
        exact FindingsExtend.trans hext
          (FindingsExtend.trans
            (walkEntry_extends ap rules opts none e (childRelPath rel (entryName e))
              { sN with checks := sN.checks + 1 })
            (walkEntries_extends ap rules opts none rel rest _))
end

/-- C9: for every stop signal `K` — the abort flag set, or the timeout
elapsing, at *any* check during traversal — the scan still completes (the
modelled walk is a total function: no exception escapes), returning a
`ScanResult` whose verdict is computed from exactly its findings, and whose
findings are an already-accumulated portion of the undisturbed scan's
findings — nothing collected up to the stop is discarded. -/
theorem scan_abort_wellformed (ap : Rule → List Char → List Char → List Finding)
    (rules : List Rule) (opts : ScanOptions) (K : Option Nat) (rootReadable : Bool)
    (root : FsEntries) :
    (scanModel ap rules opts K rootReadable root).verdict =
      determineVerdict (scanModel ap rules opts K rootReadable root).findings ∧
    FindingsExtend (scanModel ap rules opts K rootReadable root).findings
      (scanModel ap rules opts none rootReadable root).findings := by
  constructor
  · rfl
  · show FindingsExtend
      (walkEntry ap rules opts K (.dir [] rootReadable root) [] ⟨[], 0, 0⟩).findings
      (walkEntry ap rules opts none (.dir [] rootReadable root) [] ⟨[], 0, 0⟩).findings
    rcases walkEntry_stopRel ap rules opts K (.dir [] rootReadable root) [] ⟨[], 0, 0⟩
      with heq | ⟨_, hext⟩
    · rw [heq]
      exact FindingsExtend.refl _
    · exact hext

end RepoScan
